import Mathlib

/-!
Verification development for the agentna dual-index memory layer.

This file gives a shallow embedding of the core data structures and
operations of the repository:

* `KnowledgeGraph` models `agentna/memory/knowledge_graph.py` (a NetworkX
  `DiGraph`: a node set with attribute dictionaries and an edge set keyed by
  `(source, target)` with attribute dictionaries).
* `EmbeddingStore` / `HybridStore` model `agentna/memory/embeddings.py` and
  `agentna/memory/hybrid_store.py` (chunk ids with metadata, upserted and
  deleted by file).
* The impact-score and severity computations model
  `agentna/analysis/impact_analyzer.py`.
* `indexFile` / `indexFiles` / `incrementalIndex` model
  `agentna/indexing/indexer.py` over an abstract file system environment.

Python dictionaries of attributes are modelled as records of `Option` fields
(`none` = key absent) plus an association-list for free-form metadata; Python
sets are modelled as `Finset String`; floats are modelled as `ℚ`.
-/

namespace Agentna

/-- Attribute dictionary of a graph node, as stored by NetworkX.  `add_node`
in `knowledge_graph.py` sets the five named keys and merges `metadata`;
a node created implicitly by `add_edge` has the empty dictionary. -/
structure NodeAttrs where
  node_type : Option String := none
  name : Option String := none
  file_path : Option String := none
  line_start : Option Int := none
  line_end : Option Int := none
  metadata : List (String × String) := []
deriving DecidableEq

/-- Attribute dictionary of a graph edge, as stored by NetworkX.
`add_relationship` sets `relation_type`, `weight`, `line_number` and merges
`metadata`. -/
structure EdgeAttrs where
  relation_type : Option String := none
  weight : Option ℚ := none
  line_number : Option Int := none
  metadata : List (String × String) := []
deriving DecidableEq

/-- `GraphNode` from `memory/models.py` (the `node_type` enum value is kept
as its string value). -/
structure GraphNode where
  id : String
  node_type : String
  name : String
  file_path : Option String := none
  line_start : Option Int := none
  line_end : Option Int := none
  metadata : List (String × String) := []
deriving DecidableEq

/-- `Relationship` from `memory/models.py` (the `relation_type` enum value is
kept as its string value; `weight` defaults to `1.0`). -/
structure Relationship where
  source_id : String
  target_id : String
  relation_type : String
  weight : ℚ := 1
  line_number : Option Int := none
  metadata : List (String × String) := []
deriving DecidableEq

/-- Python `dict.update` on metadata dictionaries modelled as association
lists: keys of `upd` overwrite keys of `old`, other keys of `old` survive. -/
def dictUpdate (old upd : List (String × String)) : List (String × String) :=
  old.filter (fun p => upd.all (fun q => q.1 ≠ p.1)) ++ upd

/-- The knowledge graph state: a NetworkX `DiGraph`.  `nodes` is the node
set, `nodeAttrs` the per-node attribute dictionaries (meaningful on members
of `nodes`, empty elsewhere), `edges` the set of directed edges keyed by
`(source, target)`, and `edgeAttrs` the per-edge attribute dictionaries. -/
structure KnowledgeGraph where
  nodes : Finset String
  nodeAttrs : String → NodeAttrs
  edges : Finset (String × String)
  edgeAttrs : String × String → EdgeAttrs

/-- The empty graph (a fresh `nx.DiGraph()`). -/
def KnowledgeGraph.empty : KnowledgeGraph :=
  ⟨∅, fun _ => {}, ∅, fun _ => {}⟩

/-- `KnowledgeGraph.add_node`: upsert of a node; NetworkX `add_node` updates
the attribute dictionary of an existing node (the five named keys are always
overwritten, metadata keys are merged). -/
def KnowledgeGraph.add_node (g : KnowledgeGraph) (n : GraphNode) : KnowledgeGraph :=
  { g with
    nodes := insert n.id g.nodes
    nodeAttrs := fun x =>
      if x = n.id then
        { node_type := some n.node_type
          name := some n.name
          file_path := n.file_path
          line_start := n.line_start
          line_end := n.line_end
          metadata := dictUpdate (g.nodeAttrs n.id).metadata n.metadata }
      else g.nodeAttrs x }

/-- `KnowledgeGraph.add_relationship`: NetworkX `add_edge` keyed by
`(source, target)`; missing endpoints are created as attribute-less nodes;
an existing edge's dictionary is updated in place. -/
def KnowledgeGraph.add_relationship (g : KnowledgeGraph) (r : Relationship) : KnowledgeGraph :=
  { nodes := insert r.source_id (insert r.target_id g.nodes)
    nodeAttrs := g.nodeAttrs
    edges := insert (r.source_id, r.target_id) g.edges
    edgeAttrs := fun e =>
      if e = (r.source_id, r.target_id) then
        { relation_type := some r.relation_type
          weight := some r.weight
          line_number := r.line_number
          metadata := dictUpdate (g.edgeAttrs (r.source_id, r.target_id)).metadata r.metadata }
      else g.edgeAttrs e }

/-- `KnowledgeGraph.remove_node`: removes a node and all edges touching it
(no-op when the node is absent). -/
def KnowledgeGraph.remove_node (g : KnowledgeGraph) (id : String) : KnowledgeGraph :=
  if id ∈ g.nodes then
    { nodes := g.nodes.erase id
      nodeAttrs := fun x => if x = id then {} else g.nodeAttrs x
      edges := g.edges.filter (fun e => e.1 ≠ id ∧ e.2 ≠ id)
      edgeAttrs := fun e => if e.1 = id ∨ e.2 = id then {} else g.edgeAttrs e }
  else g

/-- The set of node ids whose `file_path` attribute equals `p` (the node ids
collected by `remove_nodes_by_file` and returned by `get_nodes_by_file`). -/
def KnowledgeGraph.fileNodeIds (g : KnowledgeGraph) (p : String) : Finset String :=
  g.nodes.filter (fun x => (g.nodeAttrs x).file_path = some p)

/-- `KnowledgeGraph.remove_nodes_by_file`: bulk removal of every node whose
`file_path` attribute equals `p`, cascading to all edges touching them. -/
def KnowledgeGraph.remove_nodes_by_file (g : KnowledgeGraph) (p : String) : KnowledgeGraph :=
  let s := g.fileNodeIds p
  { nodes := g.nodes \ s
    nodeAttrs := fun x => if x ∈ s then {} else g.nodeAttrs x
    edges := g.edges.filter (fun e => e.1 ∉ s ∧ e.2 ∉ s)
    edgeAttrs := fun e => if e.1 ∈ s ∨ e.2 ∈ s then {} else g.edgeAttrs e }

/-- `KnowledgeGraph.get_node`: reconstructs a `GraphNode` from the stored
attribute dictionary, with the source's defaults (`node_type` falls back to
`"file"`, `name` to the empty string), or `none` when the id is absent. -/
def KnowledgeGraph.get_node (g : KnowledgeGraph) (id : String) : Option GraphNode :=
  if id ∈ g.nodes then
    let a := g.nodeAttrs id
    some
      { id := id
        node_type := a.node_type.getD "file"
        name := a.name.getD ""
        file_path := a.file_path
        line_start := a.line_start
        line_end := a.line_end
        metadata := a.metadata }
  else none

/-- `KnowledgeGraph.node_count`. -/
def KnowledgeGraph.node_count (g : KnowledgeGraph) : ℕ := g.nodes.card

/-- `KnowledgeGraph.edge_count`. -/
def KnowledgeGraph.edge_count (g : KnowledgeGraph) : ℕ := g.edges.card

/-- The in-neighbours of `x` in the edge relation `adj` (NetworkX
`predecessors`), as a set. -/
def preds (adj : Finset (String × String)) (x : String) : Finset String :=
  (adj.filter (fun e => e.2 = x)).image Prod.fst

/-- The in-neighbours of `x` in the edge relation `adj`, enumerated in a
canonical order for the traversal queue. -/
def predsList (adj : Finset (String × String)) (x : String) : List String :=
  ((adj.filter (fun e => e.2 = x)).image Prod.fst).sort (· ≤ ·)

/-- First components of the queued entries, as a set. -/
def queueIds (queue : List (String × ℕ)) : Finset String :=
  (queue.map Prod.fst).toFinset

/-- The breadth-first collection loop shared by `get_dependents` (with
`adj = g.edges`) and `get_dependencies` (with the reversed edge set):

```
while queue:
    current, depth = queue.pop(0)
    if current in visited or depth > max_depth: continue
    visited.add(current)
    for predecessor in predecessors(current):
        if predecessor not in visited:
            dependents.add(predecessor); queue.append((predecessor, depth + 1))
```
-/
def bfsCollect (adj : Finset (String × String)) (maxDepth : ℕ) :
    List (String × ℕ) → Finset String → Finset String → Finset String
  | [], _, deps => deps
  | (c, d) :: rest, visited, deps =>
    if c ∈ visited ∨ maxDepth < d then
      bfsCollect adj maxDepth rest visited deps
    else
      let ns := (predsList adj c).filter (fun p => p ∉ insert c visited)
      bfsCollect adj maxDepth (rest ++ ns.map (fun p => (p, d + 1)))
        (insert c visited) (deps ∪ ns.toFinset)
termination_by queue visited _ =>
  (((adj.image Prod.fst ∪ queueIds queue) \ visited).card, queue.length)
decreasing_by
  · apply Prod.Lex.right'
    · apply Finset.card_le_card
      apply Finset.sdiff_subset_sdiff _ le_rfl
      apply Finset.union_subset_union_right
      intro x hx
      simp only [queueIds, List.map_cons, List.toFinset_cons, Finset.mem_insert] at hx ⊢
      exact Or.inr hx
    · simp
  · apply Prod.Lex.left
    have hc : c ∈ (adj.image Prod.fst ∪ queueIds ((c, d) :: rest)) \ visited := by
      have h1 : c ∈ queueIds ((c, d) :: rest) := by
        simp [queueIds]
      have h2 : c ∉ visited := by
        rename_i h
        push_neg at h
        exact h.1
      exact Finset.mem_sdiff.mpr ⟨Finset.mem_union_right _ h1, h2⟩
    apply Finset.card_lt_card
    rw [Finset.ssubset_iff_of_subset]
    · refine ⟨c, hc, ?_⟩
      intro hmem
      rcases Finset.mem_sdiff.mp hmem with ⟨_, hns⟩
      exact hns (Finset.mem_insert_self c visited)
    · intro x hx
      rcases Finset.mem_sdiff.mp hx with ⟨hxu, hxv⟩
      have hxv' : x ∉ visited := fun hmem => hxv (Finset.mem_insert_of_mem hmem)
      refine Finset.mem_sdiff.mpr ⟨?_, hxv'⟩
      rcases Finset.mem_union.mp hxu with h | h
      · exact Finset.mem_union_left _ h
      · simp only [queueIds, List.map_append, List.map_map, List.toFinset_append,
          Finset.mem_union, List.mem_toFinset, List.mem_map] at h
        rcases h with h | h
        · refine Finset.mem_union_right _ ?_
          simp only [queueIds, List.map_cons, List.toFinset_cons, Finset.mem_insert,
            List.mem_toFinset, List.mem_map]
          exact Or.inr h
        · rcases h with ⟨p, hp, hpx⟩
          rcases List.mem_filter.mp hp with ⟨hpl, _⟩
          apply Finset.mem_union_left
          have hpim : p ∈ (adj.filter (fun e => e.2 = c)).image Prod.fst := by
            have := (Finset.mem_sort (α := String) (· ≤ ·)).mp hpl
            exact this
          rcases Finset.mem_image.mp hpim with ⟨e, he, hep⟩
          rcases Finset.mem_filter.mp he with ⟨headj, _⟩
          refine Finset.mem_image.mpr ⟨e, headj, ?_⟩
          rw [hep, ← hpx]
          simp

/-- `KnowledgeGraph.get_dependents`: breadth-first collection following
incoming edges, starting from `id` (empty when `id` is not in the graph).
The Python function returns `list(dependents)`; we return the set. -/
def KnowledgeGraph.get_dependents (g : KnowledgeGraph) (id : String)
    (maxDepth : ℕ := 10) : Finset String :=
  if id ∈ g.nodes then bfsCollect g.edges maxDepth [(id, 0)] ∅ ∅ else ∅

/-- `KnowledgeGraph.get_dependencies`: breadth-first collection following
outgoing edges; following successors of `g` is the same loop as following
predecessors in the edge-reversed graph. -/
def KnowledgeGraph.get_dependencies (g : KnowledgeGraph) (id : String)
    (maxDepth : ℕ := 10) : Finset String :=
  if id ∈ g.nodes then
    bfsCollect (g.edges.image Prod.swap) maxDepth [(id, 0)] ∅ ∅
  else ∅

/-- One step of reachability along `adj` against edge direction: the sources
of all edges whose target lies in `s`. -/
def reachStep (adj : Finset (String × String)) (s : Finset String) : Finset String :=
  (adj.filter (fun e => e.2 ∈ s)).image Prod.fst

/-- Everything reachable from `start` in at most `k` hops, following edges of
`adj` backwards (the reference semantics used to characterise the BFS). -/
def reachWithin (adj : Finset (String × String)) (start : String) : ℕ → Finset String
  | 0 => {start}
  | k + 1 => reachWithin adj start k ∪ reachStep adj (reachWithin adj start k)

/-- `CodeChunk` from `memory/models.py` (the fields consumed by the memory
layer; enum values kept as strings, floats-free). -/
structure CodeChunk where
  id : String
  file_path : String
  language : String := ""
  symbol_name : Option String := none
  symbol_type : String := "file"
  line_start : Int := 1
  line_end : Int := 1
  content : String := ""
  content_hash : String := ""
  parent_symbol : Option String := none
deriving DecidableEq

/-- The metadata record stored next to a chunk id by
`EmbeddingStore.add_chunks` (`symbol_name` and `parent_symbol` are stored as
`x or ""`). -/
structure ChunkMeta where
  file_path : String
  language : String
  symbol_name : String
  symbol_type : String
  line_start : Int
  line_end : Int
  content_hash : String
  parent_symbol : String
deriving DecidableEq

/-- The metadata dictionary written for a chunk by `add_chunks`. -/
def CodeChunk.toMeta (c : CodeChunk) : ChunkMeta :=
  { file_path := c.file_path
    language := c.language
    symbol_name := c.symbol_name.getD ""
    symbol_type := c.symbol_type
    line_start := c.line_start
    line_end := c.line_end
    content_hash := c.content_hash
    parent_symbol := c.parent_symbol.getD "" }

/-- The ChromaDB code collection of `memory/embeddings.py`: a set of chunk
ids together with the stored metadata (meaningful on members of `ids`). -/
structure EmbeddingStore where
  ids : Finset String
  meta : String → ChunkMeta

/-- A fresh, empty collection. -/
def EmbeddingStore.empty : EmbeddingStore :=
  ⟨∅, fun _ => ⟨"", "", "", "", 0, 0, "", ""⟩⟩

/-- `EmbeddingStore.add_chunks`: an id-keyed upsert of each chunk in order. -/
def EmbeddingStore.add_chunks (st : EmbeddingStore) (chunks : List CodeChunk) :
    EmbeddingStore :=
  chunks.foldl
    (fun s c => ⟨insert c.id s.ids, fun x => if x = c.id then c.toMeta else s.meta x⟩)
    st

/-- `EmbeddingStore.delete_by_file`: removes every chunk whose stored
`file_path` metadata equals `p`. -/
def EmbeddingStore.delete_by_file (st : EmbeddingStore) (p : String) : EmbeddingStore :=
  ⟨st.ids.filter (fun x => ¬(st.meta x).file_path = p), st.meta⟩

/-- The ids returned by `EmbeddingStore.get_chunks_by_file` (exact retrieval
by stored `file_path`). -/
def EmbeddingStore.chunkIdsByFile (st : EmbeddingStore) (p : String) : Finset String :=
  st.ids.filter (fun x => (st.meta x).file_path = p)

/-- `EmbeddingStore.count_chunks`. -/
def EmbeddingStore.count_chunks (st : EmbeddingStore) : ℕ := st.ids.card

/-- Python `chunk.symbol_name or chunk.file_path` (an empty or missing
symbol name falls back to the file path). -/
def orElseStr (a : Option String) (b : String) : String :=
  match a with
  | some s => if s = "" then b else s
  | none => b

/-- The mirrored graph node written for a chunk by
`HybridStore.index_chunks`. -/
def chunkNode (c : CodeChunk) : GraphNode :=
  { id := c.id
    node_type := c.symbol_type
    name := orElseStr c.symbol_name c.file_path
    file_path := some c.file_path
    line_start := some c.line_start
    line_end := some c.line_end
    metadata := [] }

/-- `HybridStore` from `memory/hybrid_store.py`: the embedding store and the
knowledge graph, always written together. -/
structure HybridStore where
  embeddings : EmbeddingStore
  graph : KnowledgeGraph

/-- A fresh store over an empty collection and an empty graph. -/
def HybridStore.empty : HybridStore :=
  ⟨EmbeddingStore.empty, KnowledgeGraph.empty⟩

/-- `HybridStore.index_chunks`: no-op on an empty batch, otherwise upserts
the chunks into the embedding store, adds one mirrored node per chunk, then
adds all given relationships (and persists the graph, a no-op here). -/
def HybridStore.index_chunks (st : HybridStore) (chunks : List CodeChunk)
    (rels : List Relationship) : HybridStore :=
  if chunks = [] then st
  else
    { embeddings := st.embeddings.add_chunks chunks
      graph :=
        rels.foldl (fun g r => g.add_relationship r)
          (chunks.foldl (fun g c => g.add_node (chunkNode c)) st.graph) }

/-- `HybridStore.remove_file`: deletes by file from both indexes. -/
def HybridStore.remove_file (st : HybridStore) (p : String) : HybridStore :=
  { embeddings := st.embeddings.delete_by_file p
    graph := st.graph.remove_nodes_by_file p }

/-- One mutating operation on the hybrid store (the two writers named by the
bijection invariant). -/
inductive StoreOp
  | index (chunks : List CodeChunk) (rels : List Relationship)
  | remove (p : String)

/-- Apply one operation. -/
def HybridStore.applyOp : HybridStore → StoreOp → HybridStore
  | st, .index cs rs => st.index_chunks cs rs
  | st, .remove p => st.remove_file p

/-- Apply a sequence of operations in order. -/
def HybridStore.applyOps (st : HybridStore) (ops : List StoreOp) : HybridStore :=
  ops.foldl HybridStore.applyOp st

/-- The chunk/node consistency invariant of the hybrid store: every indexed
chunk has a graph node of the same id whose `file_path` attribute matches
the chunk's metadata; every graph node carrying a `file_path` attribute is
an indexed chunk of that file; nodes outside the graph carry no
attributes. -/
def HybridStore.Inv (st : HybridStore) : Prop :=
  (∀ x ∈ st.embeddings.ids, x ∈ st.graph.nodes ∧
      (st.graph.nodeAttrs x).file_path = some (st.embeddings.meta x).file_path) ∧
  (∀ x ∈ st.graph.nodes, ∀ p, (st.graph.nodeAttrs x).file_path = some p →
      x ∈ st.embeddings.ids ∧ (st.embeddings.meta x).file_path = p) ∧
  (∀ x, x ∉ st.graph.nodes → st.graph.nodeAttrs x = {})

/-! ### Impact analyzer (`analysis/impact_analyzer.py`) -/

/-- `ImpactAnalyzer._calculate_impact_score`: four independently capped
weights summed and capped at `1.0`. -/
def calcImpactScore (num_files num_symbols num_direct num_transitive : ℕ) : ℚ :=
  min 1
    (min ((num_files : ℚ) / 10) 0.3 + min ((num_symbols : ℚ) / 20) 0.2
      + min ((num_direct : ℚ) / 30) 0.3 + min ((num_transitive : ℚ) / 50) 0.2)

/-- `ImpactAnalyzer._determine_severity`: the if-chain of the source. -/
def determineSeverity (score : ℚ) : String :=
  if score ≥ 0.8 then "critical"
  else if score ≥ 0.6 then "high"
  else if score ≥ 0.3 then "medium"
  else "low"

/-- The severity mapping as worded by the specification: inclusive
lower-bound thresholds carving `[0, 1]` into four intervals. -/
def severityIntervalSpec (score : ℚ) : String :=
  if 0.8 ≤ score then "critical"
  else if 0.6 ≤ score ∧ score < 0.8 then "high"
  else if 0.3 ≤ score ∧ score < 0.6 then "medium"
  else "low"

/-- The changed-symbol set collected by `ImpactAnalyzer.analyze_files`:
all node ids of all changed files. -/
def changedSymbols (g : KnowledgeGraph) (paths : List String) : Finset String :=
  paths.foldl (fun acc p => acc ∪ g.fileNodeIds p) ∅

/-- The directly-affected set of `analyze_files`: depth-1 dependents of
every changed node. -/
def directlyAffected (g : KnowledgeGraph) (paths : List String) : Finset String :=
  paths.foldl (fun acc p => acc ∪ (g.fileNodeIds p).sup (fun n => g.get_dependents n 1)) ∅

/-- The transitively-affected set of `analyze_files`: depth-`maxDepth`
dependents minus depth-1 dependents minus the node itself, per changed
node. -/
def transitivelyAffected (g : KnowledgeGraph) (paths : List String) (maxDepth : ℕ) :
    Finset String :=
  paths.foldl
    (fun acc p =>
      acc ∪ (g.fileNodeIds p).sup
        (fun n => (g.get_dependents n maxDepth \ g.get_dependents n 1).erase n))
    ∅

/-- The impact score computed by `analyze_files`: the capped formula applied
to the number of changed files, changed symbols, direct dependents and
transitive dependents. -/
def analyzeFilesScore (g : KnowledgeGraph) (paths : List String) (maxDepth : ℕ) : ℚ :=
  calcImpactScore paths.length (changedSymbols g paths).card
    (directlyAffected g paths).card (transitivelyAffected g paths maxDepth).card

/-! ### Indexer (`indexing/indexer.py`) over an abstract file system -/

/-- The environment a sync runs against: the includable files
(`project.iter_files`), the result of `read_text` (`none` = the read raises
and is caught), the content digest computed by `hash_file`, and the parser
outputs (`parser.parse` / `parser.extract_relationships`). -/
structure Env where
  files : List String
  read : String → Option String
  hash : String → String
  parseChunks : String → String → List CodeChunk
  parseRels : String → String → List CodeChunk → List Relationship

/-- The fingerprint table (`file_hashes.json`): relative path → content
hash, modelled as a Python dict (insertion-ordered key list plus values). -/
structure Fingerprints where
  keys : List String
  val : String → String

/-- Dictionary lookup in the fingerprint table (`stored_hashes.get(f)`). -/
def Fingerprints.get (fp : Fingerprints) (f : String) : Option String :=
  if f ∈ fp.keys then some (fp.val f) else none

/-- `stored_hashes[f] = h` (an existing key keeps its position). -/
def Fingerprints.set (fp : Fingerprints) (f h : String) : Fingerprints :=
  ⟨if f ∈ fp.keys then fp.keys else fp.keys ++ [f],
    fun x => if x = f then h else fp.val x⟩

/-- `del stored_hashes[f]`. -/
def Fingerprints.del (fp : Fingerprints) (f : String) : Fingerprints :=
  ⟨fp.keys.erase f, fp.val⟩

/-- The state a sync mutates: the hybrid store and the fingerprint table. -/
structure SyncState where
  store : HybridStore
  hashes : Fingerprints

/-- `Indexer.index_file`: skip when not forced and the stored fingerprint
matches the current hash; skip (leaving everything unchanged) when the read
raises; otherwise remove the file's old data, parse, index the chunks and
relationships, and update the fingerprint. -/
def indexFile (env : Env) (st : SyncState) (f : String) (force : Bool) :
    SyncState × List CodeChunk × List Relationship :=
  if ¬force ∧ st.hashes.get f = some (env.hash f) then (st, [], [])
  else
    match env.read f with
    | none => (st, [], [])
    | some content =>
      let chunks := env.parseChunks f content
      let rels := env.parseRels f content chunks
      let store1 := (st.store.remove_file f).index_chunks chunks rels
      (⟨store1, st.hashes.set f (env.hash f)⟩, chunks, rels)

/-- One step of `Indexer.index_files`: run `index_file` and update the
`files_indexed` / `total_chunks` / `total_relationships` counters (a file
producing no chunks is not counted). -/
def indexFilesStep (env : Env) (force : Bool) (acc : SyncState × ℕ × ℕ × ℕ)
    (f : String) : SyncState × ℕ × ℕ × ℕ :=
  let r := indexFile env acc.1 f force
  if r.2.1 = [] then (r.1, acc.2)
  else (r.1, acc.2.1 + 1, acc.2.2.1 + r.2.1.length, acc.2.2.2 + r.2.2.length)

/-- `Indexer.index_files`: fold `index_file` over the batch, returning the
final state and the statistics triple. -/
def indexFiles (env : Env) (force : Bool) (st : SyncState) (files : List String) :
    SyncState × ℕ × ℕ × ℕ :=
  files.foldl (indexFilesStep env force) (st, 0, 0, 0)

/-- `Indexer.incremental_index`: select the changed/new files by fingerprint
comparison, drop deleted files from both the store and the fingerprint
table, then force-index the selected files.  Returns the final state, the
`index_files` statistics and the `deleted_files` count. -/
def incrementalIndex (env : Env) (st : SyncState) :
    SyncState × (ℕ × ℕ × ℕ) × ℕ :=
  let stored := st.hashes
  let filesToIndex := env.files.filter (fun f => ¬stored.get f = some (env.hash f))
  let deleted := stored.keys.filter (fun f => f ∉ env.files)
  let store1 := deleted.foldl HybridStore.remove_file st.store
  let hashes1 := deleted.foldl Fingerprints.del stored
  let r := indexFiles env true ⟨store1, hashes1⟩ filesToIndex
  (r.1, r.2, deleted.length)

/-- `hashing.generate_chunk_id`. -/
def generateChunkId (file_path : String) (line_start line_end : ℕ) : String :=
  file_path ++ ":" ++ toString line_start ++ ":" ++ toString line_end

/-- Number of lines of a content string (the length of
`content.split("\n")`, i.e. one more than the number of newline
characters). -/
def countLines (content : String) : ℕ := content.data.count '\n' + 1

/-- The file-level chunk built by `PythonParser._create_file_chunk`
(`hashC` abstracts `hash_content`, `stem` abstracts `Path.stem`). -/
def pyFileChunk (hashC : String → String) (stem : String → String)
    (path content : String) : CodeChunk :=
  { id := generateChunkId path 1 (countLines content)
    file_path := path
    language := "python"
    symbol_name := some (stem path)
    symbol_type := "file"
    line_start := 1
    line_end := (countLines content : Int)
    content := content
    content_hash := hashC content }

/-- The control flow of `PythonParser.parse`: `astOutcome` abstracts
`ast.parse` plus the symbol extraction walk (`none` = `SyntaxError`).
On a syntax error the parser returns only the file-level chunk; it never
raises, so an unparseable file is still indexed. -/
def pythonParseModel (hashC : String → String) (stem : String → String)
    (astOutcome : String → Option (List CodeChunk)) (path content : String) :
    List CodeChunk :=
  match astOutcome content with
  | none => [pyFileChunk hashC stem path content]
  | some syms => pyFileChunk hashC stem path content :: syms

/-! ### Concrete objects used by counterexamples and witnesses -/

/-- The three-node chain of the specification scenario: `h` depends on `g`
(edge `h → g`) and `g` depends on `f` (edge `g → f`). -/
def chainGraph : KnowledgeGraph :=
  (((KnowledgeGraph.empty.add_node
        { id := "f", node_type := "function", name := "f", file_path := some "a.py" }).add_node
        { id := "g", node_type := "function", name := "g", file_path := some "b.py" }).add_node
        { id := "h", node_type := "function", name := "h", file_path := some "c.py" }).add_relationship
      { source_id := "g", target_id := "f", relation_type := "calls" }
    |>.add_relationship { source_id := "h", target_id := "g", relation_type := "calls" }

/-- A two-node cycle, for the termination/bounds witness. -/
def cycleGraph : KnowledgeGraph :=
  (KnowledgeGraph.empty.add_relationship
      { source_id := "a", target_id := "b", relation_type := "depends_on" }).add_relationship
    { source_id := "b", target_id := "a", relation_type := "depends_on" }

/-- Environment for the parse-failure scenario: one Python file whose
content hits a `SyntaxError` in `ast.parse`; its on-disk hash is `"h1"`. -/
def brokenPyEnv : Env :=
  { files := ["a.py"]
    read := fun f => if f = "a.py" then some "def broken(:" else none
    hash := fun _ => "h1"
    parseChunks := pythonParseModel (fun _ => "ch") (fun _ => "a") (fun _ => none)
    parseRels := fun _ _ _ => [] }

/-- Initial state for the parse-failure scenario: the file was previously
indexed with fingerprint `"h0"`. -/
def brokenPyState : SyncState :=
  { store := HybridStore.empty
    hashes := ⟨["a.py"], fun _ => "h0"⟩ }

/-- A state whose stored fingerprint for `a.py` already matches the current
content hash of `brokenPyEnv`. -/
def matchedPyState : SyncState :=
  { store := HybridStore.empty
    hashes := ⟨["a.py"], fun _ => "h1"⟩ }

/-- A graph with the single edge `a → b` labelled `imports`. -/
def oneRelGraph : KnowledgeGraph :=
  KnowledgeGraph.empty.add_relationship
    { source_id := "a", target_id := "b", relation_type := "imports" }

/-- `oneRelGraph` after re-adding the same `(a, b)` pair with a different
relation type. -/
def twoRelGraph : KnowledgeGraph :=
  oneRelGraph.add_relationship
    { source_id := "a", target_id := "b", relation_type := "calls" }

/-- A graph with one explicitly added node `n`. -/
def singleNodeGraph : KnowledgeGraph :=
  KnowledgeGraph.empty.add_node { id := "n", node_type := "function", name := "n" }

/-- A relationship whose source `x` does not exist in `singleNodeGraph`. -/
def danglingRel : Relationship :=
  { source_id := "x", target_id := "n", relation_type := "calls" }

/-! ### Supporting lemmas about the traversal -/

lemma mem_preds {adj : Finset (String × String)} {x y : String} :
    y ∈ preds adj x ↔ (y, x) ∈ adj := by
  constructor
  · intro h
    rcases Finset.mem_image.mp h with ⟨e, he, hey⟩
    rcases Finset.mem_filter.mp he with ⟨hadj, h2⟩
    have : e = (y, x) := by
      cases e
      simp only at hey h2
      simp [hey, h2]
    rwa [this] at hadj
  · intro h
    exact Finset.mem_image.mpr ⟨(y, x), Finset.mem_filter.mpr ⟨h, rfl⟩, rfl⟩

lemma predsList_toFinset (adj : Finset (String × String)) (x : String) :
    (predsList adj x).toFinset = preds adj x := by
  simp [predsList, preds, Finset.sort_toFinset]

lemma mem_reachStep {adj : Finset (String × String)} {S : Finset String} {y : String} :
    y ∈ reachStep adj S ↔ ∃ x ∈ S, (y, x) ∈ adj := by
  constructor
  · intro h
    rcases Finset.mem_image.mp h with ⟨e, he, hey⟩
    rcases Finset.mem_filter.mp he with ⟨hadj, h2⟩
    refine ⟨e.2, h2, ?_⟩
    rw [← hey]
    exact hadj
  · rintro ⟨x, hx, h⟩
    exact Finset.mem_image.mpr ⟨(y, x), Finset.mem_filter.mpr ⟨h, hx⟩, rfl⟩

lemma reachStep_mono {adj : Finset (String × String)} {S T : Finset String}
    (h : S ⊆ T) : reachStep adj S ⊆ reachStep adj T := by
  intro y hy
  rcases mem_reachStep.mp hy with ⟨x, hx, hyx⟩
  exact mem_reachStep.mpr ⟨x, h hx, hyx⟩

lemma reachStep_union (adj : Finset (String × String)) (S T : Finset String) :
    reachStep adj (S ∪ T) = reachStep adj S ∪ reachStep adj T := by
  ext y
  simp only [mem_reachStep, Finset.mem_union]
  constructor
  · rintro ⟨x, hx | hx, h⟩
    · exact Or.inl ⟨x, hx, h⟩
    · exact Or.inr ⟨x, hx, h⟩
  · rintro (⟨x, hx, h⟩ | ⟨x, hx, h⟩)
    · exact ⟨x, Or.inl hx, h⟩
    · exact ⟨x, Or.inr hx, h⟩

lemma reachStep_empty (adj : Finset (String × String)) : reachStep adj ∅ = ∅ := by
  ext y
  simp [mem_reachStep]

lemma reachStep_singleton (adj : Finset (String × String)) (x : String) :
    reachStep adj {x} = preds adj x := by
  ext y
  simp [mem_reachStep, mem_preds]

lemma preds_subset_reachStep {adj : Finset (String × String)} {S : Finset String}
    {x : String} (hx : x ∈ S) : preds adj x ⊆ reachStep adj S := by
  intro y hy
  exact mem_reachStep.mpr ⟨x, hx, mem_preds.mp hy⟩

lemma reachWithin_succ (adj : Finset (String × String)) (s : String) (k : ℕ) :
    reachWithin adj s (k + 1) = reachWithin adj s k ∪ reachStep adj (reachWithin adj s k) :=
  rfl

lemma reachWithin_subset_succ (adj : Finset (String × String)) (s : String) (k : ℕ) :
    reachWithin adj s k ⊆ reachWithin adj s (k + 1) :=
  Finset.subset_union_left

lemma start_mem_reachWithin (adj : Finset (String × String)) (s : String) (k : ℕ) :
    s ∈ reachWithin adj s k := by
  induction k with
  | zero => simp [reachWithin]
  | succ k ih => exact reachWithin_subset_succ adj s k ih

lemma reachStep_reachWithin_subset (adj : Finset (String × String)) (s : String) (k : ℕ) :
    reachStep adj (reachWithin adj s k) ⊆ reachWithin adj s (k + 1) :=
  Finset.subset_union_right

lemma newNodes_toFinset (adj : Finset (String × String)) (c : String) (V : Finset String) :
    ((predsList adj c).filter (fun p => p ∉ insert c V)).toFinset
      = preds adj c \ insert c V := by
  ext x
  simp only [List.mem_toFinset, List.mem_filter, Finset.mem_sdiff, decide_eq_true_eq]
  rw [← predsList_toFinset]
  simp

/-- Every queued entry whose depth exceeds `maxDepth` is skipped, so a queue
of such entries leaves the collected set unchanged. -/
lemma bfsCollect_skip (adj : Finset (String × String)) (maxDepth : ℕ) :
    ∀ (entries : List (String × ℕ)) (V D : Finset String),
      (∀ p ∈ entries, maxDepth < p.2) →
      bfsCollect adj maxDepth entries V D = D := by
  intro entries
  induction entries with
  | nil => intro V D _; rw [bfsCollect]
  | cons p rest ih =>
    intro V D h
    cases p with
    | mk c d =>
      rw [bfsCollect]
      have hd : maxDepth < d := h (c, d) (List.mem_cons_self _ _)
      rw [if_pos (Or.inr hd)]
      exact ih V D (fun q hq => h q (List.mem_cons_of_mem _ hq))

/-- The central invariant argument: while the traversal is working through
the entries of depth `e + 1` (list `A`), having already pushed the entries of
depth `e + 2` collected so far (list `B`), the visited set sits between the
`e`-hop and `(e+1)`-hop reachable sets and the collected set is exactly what
has been discovered.  Under these invariants the loop computes the set of
nodes reachable within `maxD + 1` hops, minus the start node. -/
lemma bfsCollect_run (adj : Finset (String × String)) (maxD : ℕ) (s : String) :
    ∀ (n : ℕ), ∀ (e : ℕ), ∀ (A : List String), ∀ (B : List String),
      ∀ (V D : Finset String),
      n = maxD - e → e ≤ maxD →
      reachWithin adj s e ⊆ V →
      V ⊆ reachWithin adj s (e + 1) →
      (e < maxD → reachWithin adj s (e + 1) ⊆ V ∪ A.toFinset) →
      A.toFinset ⊆ reachWithin adj s (e + 1) →
      B.toFinset ⊆ reachWithin adj s (e + 2) →
      reachStep adj (V \ reachWithin adj s e) ⊆ V ∪ B.toFinset →
      D = (reachWithin adj s (e + 1) \ {s}) ∪ B.toFinset →
      s ∉ B.toFinset →
      (e = maxD → B = []) →
      bfsCollect adj maxD
          (A.map (fun x => (x, e + 1)) ++ B.map (fun x => (x, e + 2))) V D
        = reachWithin adj s (maxD + 1) \ {s} := by
  intro n
  induction n with
  | zero =>
    intro e A B V D hn he _ _ _ _ _ _ hD hsB hg
    have heq : e = maxD := by omega
    subst heq
    have hB : B = [] := hg rfl
    subst hB
    rw [bfsCollect_skip]
    · rw [hD]
      simp
    · intro p hp
      simp only [List.map_nil, List.append_nil, List.mem_map] at hp
      rcases hp with ⟨x, _, hx⟩
      rw [← hx]
      omega
  | succ n ih =>
    intro e A
    induction A with
    | nil =>
      intro B V D hn he hVlow hVup hcov hAsub hBsub hstep hD hsB _
      have helt : e < maxD := by omega
      have hVeq : V = reachWithin adj s (e + 1) := by
        apply subset_antisymm hVup
        have := hcov helt
        simpa using this
      have hcov2 : reachWithin adj s (e + 2) ⊆ V ∪ B.toFinset := by
        rw [show e + 2 = (e + 1) + 1 from rfl, reachWithin_succ adj s (e + 1)]
        apply Finset.union_subset
        · rw [← hVeq]
          exact Finset.subset_union_left
        · have hsplit : reachWithin adj s (e + 1)
              = reachWithin adj s e ∪ (reachWithin adj s (e + 1) \ reachWithin adj s e) :=
            (Finset.union_sdiff_of_subset (reachWithin_subset_succ adj s e)).symm
          rw [hsplit, reachStep_union]
          apply Finset.union_subset
          · intro y hy
            apply Finset.mem_union_left
            rw [hVeq]
            exact reachStep_reachWithin_subset adj s e hy
          · have hVd : reachWithin adj s (e + 1) \ reachWithin adj s e
                = V \ reachWithin adj s e := by rw [hVeq]
            rw [hVd]
            exact hstep
      have hDnext : D = reachWithin adj s (e + 2) \ {s} := by
        rw [hD]
        apply subset_antisymm
        · apply Finset.union_subset
          · exact Finset.sdiff_subset_sdiff (reachWithin_subset_succ adj s (e + 1)) le_rfl
          · intro y hyB
            refine Finset.mem_sdiff.mpr ⟨hBsub hyB, ?_⟩
            intro hys
            rw [Finset.mem_singleton] at hys
            rw [hys] at hyB
            exact hsB hyB
        · intro y hy
          rcases Finset.mem_sdiff.mp hy with ⟨hy2, hys⟩
          rcases Finset.mem_union.mp (hcov2 hy2) with h | h
          · exact Finset.mem_union_left _ (Finset.mem_sdiff.mpr ⟨hVeq ▸ h, hys⟩)
          · exact Finset.mem_union_right _ h
      have hmain := ih (e + 1) B [] V D (by omega) (by omega)
        (by rw [hVeq])
        (by rw [hVeq]; exact reachWithin_subset_succ adj s (e + 1))
        (fun _ => by simpa using hcov2)
        hBsub
        (by simp)
        (by
          have hempty : V \ reachWithin adj s (e + 1) = ∅ :=
            Finset.sdiff_eq_empty_iff_subset.mpr hVeq.le
          rw [hempty, reachStep_empty]
          exact Finset.empty_subset _)
        (by simpa using hDnext)
        (by simp)
        (fun _ => rfl)
      simpa using hmain
    | cons c A' ihA =>
      intro B V D hn he hVlow hVup hcov hAsub hBsub hstep hD hsB hg
      have helt : e < maxD := by omega
      have hcA : c ∈ reachWithin adj s (e + 1) := hAsub (by simp)
      rw [List.map_cons, List.cons_append, bfsCollect]
      by_cases hcV : c ∈ V
      · rw [if_pos (Or.inl hcV)]
        apply ihA B V D hn he hVlow hVup ?_ ?_ hBsub hstep hD hsB hg
        · intro hlt y hy
          rcases Finset.mem_union.mp (hcov hlt hy) with h | h
          · exact Finset.mem_union_left _ h
          · rw [List.toFinset_cons, Finset.mem_insert] at h
            rcases h with h | h
            · rw [h]
              exact Finset.mem_union_left _ hcV
            · exact Finset.mem_union_right _ h
        · intro y hy
          apply hAsub
          rw [List.toFinset_cons]
          exact Finset.mem_insert_of_mem hy
      · have hcond : ¬(c ∈ V ∨ maxD < e + 1) := by
          push_neg
          exact ⟨hcV, by omega⟩
        rw [if_neg hcond]
        have hns := newNodes_toFinset adj c V
        set ns := (predsList adj c).filter (fun p => p ∉ insert c V) with hnsdef
        have hnsub : ns.toFinset ⊆ reachWithin adj s (e + 2) := by
          rw [hns]
          intro y hy
          rcases Finset.mem_sdiff.mp hy with ⟨hyp, _⟩
          apply reachStep_reachWithin_subset adj s (e + 1)
          exact preds_subset_reachStep hcA hyp
        have hmain := ihA (B ++ ns) (insert c V) (D ∪ ns.toFinset) hn he
          (hVlow.trans (Finset.subset_insert c V))
          (Finset.insert_subset_iff.mpr ⟨hcA, hVup⟩)
          (by
            intro hlt y hy
            rcases Finset.mem_union.mp (hcov hlt hy) with h | h
            · exact Finset.mem_union_left _ (Finset.mem_insert_of_mem h)
            · rw [List.toFinset_cons, Finset.mem_insert] at h
              rcases h with h | h
              · rw [h]
                exact Finset.mem_union_left _ (Finset.mem_insert_self c V)
              · exact Finset.mem_union_right _ h)
          (by
            intro y hy
            apply hAsub
            rw [List.toFinset_cons]
            exact Finset.mem_insert_of_mem hy)
          (by
            rw [List.toFinset_append]
            exact Finset.union_subset hBsub hnsub)
          (by
            intro y hy
            rcases mem_reachStep.mp hy with ⟨x, hx, hyx⟩
            rcases Finset.mem_sdiff.mp hx with ⟨hxV, hxe⟩
            rw [List.toFinset_append]
            rcases Finset.mem_insert.mp hxV with hxc | hxV
            · by_cases hyCV : y ∈ insert c V
              · exact Finset.mem_union_left _ hyCV
              · apply Finset.mem_union_right
                apply Finset.mem_union_right
                rw [hns]
                refine Finset.mem_sdiff.mpr ⟨?_, hyCV⟩
                rw [hxc] at hyx
                exact mem_preds.mpr hyx
            · have hy' : y ∈ reachStep adj (V \ reachWithin adj s e) :=
                mem_reachStep.mpr ⟨x, Finset.mem_sdiff.mpr ⟨hxV, hxe⟩, hyx⟩
              rcases Finset.mem_union.mp (hstep hy') with h | h
              · exact Finset.mem_union_left _ (Finset.mem_insert_of_mem h)
              · exact Finset.mem_union_right _ (Finset.mem_union_left _ h))
          (by
            rw [hD, List.toFinset_append, Finset.union_assoc])
          (by
            rw [List.toFinset_append]
            intro hmem
            rcases Finset.mem_union.mp hmem with h | h
            · exact hsB h
            · rw [hns] at h
              rcases Finset.mem_sdiff.mp h with ⟨_, hnot⟩
              exact hnot (Finset.mem_insert_of_mem (hVlow (start_mem_reachWithin adj s e))))
          (fun habs => absurd habs (by omega))
        rw [← hmain]
        simp [List.map_append, List.append_assoc]

/-- Running the traversal from `s` with an empty visited set computes the
set of nodes reachable (backwards along `adj`) within `maxD + 1` hops,
excluding `s` itself. -/
lemma bfsCollect_eq_reach (adj : Finset (String × String)) (maxD : ℕ) (s : String) :
    bfsCollect adj maxD [(s, 0)] ∅ ∅ = reachWithin adj s (maxD + 1) \ {s} := by
  rw [bfsCollect, if_neg (by simp)]
  have hns := newNodes_toFinset adj s (∅ : Finset String)
  set ns := (predsList adj s).filter (fun p => p ∉ insert s (∅ : Finset String)) with hnsdef
  have hinsert : insert s (∅ : Finset String) = {s} := rfl
  have hreach1 : reachWithin adj s 1 = {s} ∪ preds adj s := by
    rw [show (1 : ℕ) = 0 + 1 from rfl, reachWithin_succ]
    rw [show reachWithin adj s 0 = {s} from rfl, reachStep_singleton]
  have hns' : ns.toFinset = preds adj s \ {s} := by
    rw [hns, hinsert]
  have hmain := bfsCollect_run adj maxD s maxD 0 ns [] (insert s ∅) (∅ ∪ ns.toFinset)
    (by omega) (by omega)
    (by rw [hinsert]; exact Finset.Subset.refl {s})
    (by
      rw [hinsert, Finset.singleton_subset_iff]
      exact start_mem_reachWithin adj s 1)
    (by
      intro _ y hy
      rw [hreach1] at hy
      rw [hinsert, hns']
      rcases Finset.mem_union.mp hy with h | h
      · exact Finset.mem_union_left _ h
      · by_cases hys : y = s
        · rw [hys]
          exact Finset.mem_union_left _ (Finset.mem_singleton_self s)
        · exact Finset.mem_union_right _
            (Finset.mem_sdiff.mpr ⟨h, by simpa using hys⟩))
    (by
      rw [hns', hreach1]
      exact (Finset.sdiff_subset).trans Finset.subset_union_right)
    (by simp)
    (by
      rw [hinsert, show reachWithin adj s 0 = {s} from rfl]
      rw [Finset.sdiff_self, reachStep_empty]
      exact Finset.empty_subset _)
    (by
      rw [hreach1, Finset.union_sdiff_distrib, Finset.sdiff_self, Finset.empty_union]
      rw [hns']
      simp)
    (by simp)
    (fun _ => rfl)
  rw [← hmain]
  simp

/-- `get_dependents` computes the set of nodes within `maxDepth + 1` hops
along incoming edges, excluding the start node. -/
lemma get_dependents_eq_reach (g : KnowledgeGraph) (id : String) (maxD : ℕ)
    (h : id ∈ g.nodes) :
    g.get_dependents id maxD = reachWithin g.edges id (maxD + 1) \ {id} := by
  rw [KnowledgeGraph.get_dependents, if_pos h, bfsCollect_eq_reach]

/-- `get_dependencies` computes the set of nodes within `maxDepth + 1` hops
along outgoing edges (incoming edges of the reversed graph), excluding the
start node. -/
lemma get_dependencies_eq_reach (g : KnowledgeGraph) (id : String) (maxD : ℕ)
    (h : id ∈ g.nodes) :
    g.get_dependencies id maxD
      = reachWithin (g.edges.image Prod.swap) id (maxD + 1) \ {id} := by
  rw [KnowledgeGraph.get_dependencies, if_pos h, bfsCollect_eq_reach]

/-! ### Bounds on the traversal (cycle safety) -/

lemma reachWithin_subset_sources (adj : Finset (String × String)) (s : String) (k : ℕ) :
    reachWithin adj s k ⊆ insert s (adj.image Prod.fst) := by
  induction k with
  | zero =>
    intro x hx
    rw [show reachWithin adj s 0 = {s} from rfl, Finset.mem_singleton] at hx
    rw [hx]
    exact Finset.mem_insert_self s _
  | succ k ih =>
    rw [reachWithin_succ]
    apply Finset.union_subset ih
    intro y hy
    rcases mem_reachStep.mp hy with ⟨x, _, hyx⟩
    exact Finset.mem_insert_of_mem (Finset.mem_image.mpr ⟨(y, x), hyx, rfl⟩)

lemma get_dependents_subset_nodes (g : KnowledgeGraph)
    (hwf : ∀ e ∈ g.edges, e.1 ∈ g.nodes ∧ e.2 ∈ g.nodes) (id : String) (maxD : ℕ) :
    g.get_dependents id maxD ⊆ g.nodes := by
  by_cases h : id ∈ g.nodes
  · rw [get_dependents_eq_reach g id maxD h]
    intro x hx
    rcases Finset.mem_sdiff.mp hx with ⟨hx1, hx2⟩
    rcases Finset.mem_insert.mp (reachWithin_subset_sources g.edges id (maxD + 1) hx1)
      with hxs | hxi
    · exact absurd (Finset.mem_singleton.mpr hxs) hx2
    · rcases Finset.mem_image.mp hxi with ⟨e, he, hex⟩
      rw [← hex]
      exact (hwf e he).1
  · rw [KnowledgeGraph.get_dependents, if_neg h]
    exact Finset.empty_subset _

lemma get_dependencies_subset_nodes (g : KnowledgeGraph)
    (hwf : ∀ e ∈ g.edges, e.1 ∈ g.nodes ∧ e.2 ∈ g.nodes) (id : String) (maxD : ℕ) :
    g.get_dependencies id maxD ⊆ g.nodes := by
  by_cases h : id ∈ g.nodes
  · rw [get_dependencies_eq_reach g id maxD h]
    intro x hx
    rcases Finset.mem_sdiff.mp hx with ⟨hx1, hx2⟩
    rcases Finset.mem_insert.mp
      (reachWithin_subset_sources (g.edges.image Prod.swap) id (maxD + 1) hx1)
      with hxs | hxi
    · exact absurd (Finset.mem_singleton.mpr hxs) hx2
    · rcases Finset.mem_image.mp hxi with ⟨e, he, hex⟩
      rcases Finset.mem_image.mp he with ⟨e₀, he₀, hee⟩
      rw [← hex, ← hee]
      exact (hwf e₀ he₀).2
  · rw [KnowledgeGraph.get_dependencies, if_neg h]
    exact Finset.empty_subset _

lemma start_not_mem_get_dependents (g : KnowledgeGraph) (id : String) (maxD : ℕ) :
    id ∉ g.get_dependents id maxD := by
  by_cases h : id ∈ g.nodes
  · rw [get_dependents_eq_reach g id maxD h]
    simp
  · rw [KnowledgeGraph.get_dependents, if_neg h]
    simp

lemma start_not_mem_get_dependencies (g : KnowledgeGraph) (id : String) (maxD : ℕ) :
    id ∉ g.get_dependencies id maxD := by
  by_cases h : id ∈ g.nodes
  · rw [get_dependencies_eq_reach g id maxD h]
    simp
  · rw [KnowledgeGraph.get_dependencies, if_neg h]
    simp

/-! ### The chunk/node bijection invariant (hybrid store) -/

lemma inv_empty : HybridStore.empty.Inv := by
  refine ⟨?_, ?_, ?_⟩
  · intro x hx
    simp [HybridStore.empty, EmbeddingStore.empty] at hx
  · intro x hx
    simp [HybridStore.empty, KnowledgeGraph.empty] at hx
  · intro x _
    rfl

lemma inv_add_chunk (emb : EmbeddingStore) (g : KnowledgeGraph) (c : CodeChunk)
    (h : HybridStore.Inv ⟨emb, g⟩) :
    HybridStore.Inv
      ⟨⟨insert c.id emb.ids, fun x => if x = c.id then c.toMeta else emb.meta x⟩,
        g.add_node (chunkNode c)⟩ := by
  obtain ⟨h1, h2, h3⟩ := h
  refine ⟨?_, ?_, ?_⟩
  · intro x hx
    simp only [Finset.mem_insert] at hx
    by_cases hxc : x = c.id
    · subst hxc
      constructor
      · simp [KnowledgeGraph.add_node, chunkNode]
      · simp [KnowledgeGraph.add_node, chunkNode, CodeChunk.toMeta]
    · rcases hx with hx | hx
      · exact absurd hx hxc
      · rcases h1 x hx with ⟨hn, hfp⟩
        constructor
        · simp only [KnowledgeGraph.add_node, chunkNode, Finset.mem_insert]
          exact Or.inr hn
        · simpa [KnowledgeGraph.add_node, chunkNode, hxc] using hfp
  · intro x hx p hp
    by_cases hxc : x = c.id
    · subst hxc
      have hattr : ((g.add_node (chunkNode c)).nodeAttrs c.id).file_path
          = some c.file_path := by
        simp [KnowledgeGraph.add_node, chunkNode]
      rw [hattr, Option.some.injEq] at hp
      constructor
      · exact Finset.mem_insert_self _ _
      · show (if c.id = c.id then c.toMeta else emb.meta c.id).file_path = p
        rw [if_pos rfl]
        rw [← hp]
        rfl
    · simp only [KnowledgeGraph.add_node, chunkNode, Finset.mem_insert] at hx
      rcases hx with hx | hx
      · exact absurd hx hxc
      · rw [show ((g.add_node (chunkNode c)).nodeAttrs x) = g.nodeAttrs x by
          simp [KnowledgeGraph.add_node, chunkNode, hxc]] at hp
        rcases h2 x hx p hp with ⟨hi, hm⟩
        refine ⟨Finset.mem_insert_of_mem hi, ?_⟩
        show (if x = c.id then c.toMeta else emb.meta x).file_path = p
        rw [if_neg hxc]
        exact hm
  · intro x hx
    simp only [KnowledgeGraph.add_node, chunkNode, Finset.mem_insert, not_or] at hx
    obtain ⟨hxc, hxn⟩ := hx
    simpa [KnowledgeGraph.add_node, chunkNode, hxc] using h3 x hxn

lemma inv_add_chunks (emb : EmbeddingStore) (g : KnowledgeGraph) (chunks : List CodeChunk)
    (h : HybridStore.Inv ⟨emb, g⟩) :
    HybridStore.Inv
      ⟨emb.add_chunks chunks, chunks.foldl (fun g c => g.add_node (chunkNode c)) g⟩ := by
  induction chunks generalizing emb g with
  | nil => exact h
  | cons c cs ih =>
    rw [EmbeddingStore.add_chunks, List.foldl_cons, List.foldl_cons]
    exact ih _ _ (inv_add_chunk emb g c h)

lemma inv_add_relationship (emb : EmbeddingStore) (g : KnowledgeGraph) (r : Relationship)
    (h : HybridStore.Inv ⟨emb, g⟩) :
    HybridStore.Inv ⟨emb, g.add_relationship r⟩ := by
  obtain ⟨h1, h2, h3⟩ := h
  refine ⟨?_, ?_, ?_⟩
  · intro x hx
    rcases h1 x hx with ⟨hn, hfp⟩
    exact ⟨by
      simp only [KnowledgeGraph.add_relationship, Finset.mem_insert]
      exact Or.inr (Or.inr hn), hfp⟩
  · intro x hx p hp
    simp only [KnowledgeGraph.add_relationship] at hp
    by_cases hxn : x ∈ g.nodes
    · exact h2 x hxn p hp
    · rw [h3 x hxn] at hp
      simp at hp
  · intro x hx
    simp only [KnowledgeGraph.add_relationship, Finset.mem_insert, not_or] at hx
    exact h3 x hx.2.2

lemma inv_add_relationships (emb : EmbeddingStore) (g : KnowledgeGraph)
    (rels : List Relationship) (h : HybridStore.Inv ⟨emb, g⟩) :
    HybridStore.Inv ⟨emb, rels.foldl (fun g r => g.add_relationship r) g⟩ := by
  induction rels generalizing g with
  | nil => exact h
  | cons r rs ih =>
    rw [List.foldl_cons]
    exact ih _ (inv_add_relationship emb g r h)

lemma inv_index_chunks (st : HybridStore) (chunks : List CodeChunk)
    (rels : List Relationship) (h : st.Inv) : (st.index_chunks chunks rels).Inv := by
  rw [HybridStore.index_chunks]
  by_cases hc : chunks = []
  · rw [if_pos hc]
    exact h
  · rw [if_neg hc]
    exact inv_add_relationships _ _ rels (inv_add_chunks st.embeddings st.graph chunks h)

lemma inv_remove_file (st : HybridStore) (p : String) (h : st.Inv) :
    (st.remove_file p).Inv := by
  obtain ⟨h1, h2, h3⟩ := h
  refine ⟨?_, ?_, ?_⟩
  · intro x hx
    simp only [HybridStore.remove_file, EmbeddingStore.delete_by_file,
      Finset.mem_filter] at hx
    obtain ⟨hxi, hxp⟩ := hx
    rcases h1 x hxi with ⟨hn, hfp⟩
    have hxs : x ∉ st.graph.fileNodeIds p := by
      rw [KnowledgeGraph.fileNodeIds, Finset.mem_filter]
      rintro ⟨_, hattr⟩
      rw [hfp] at hattr
      simp only [Option.some.injEq] at hattr
      exact hxp (by simp [hattr])
    constructor
    · simp only [HybridStore.remove_file, KnowledgeGraph.remove_nodes_by_file,
        Finset.mem_sdiff]
      exact ⟨hn, hxs⟩
    · simpa [HybridStore.remove_file, KnowledgeGraph.remove_nodes_by_file, hxs] using hfp
  · intro x hx q hq
    simp only [HybridStore.remove_file, KnowledgeGraph.remove_nodes_by_file,
      Finset.mem_sdiff] at hx
    obtain ⟨hxn, hxs⟩ := hx
    rw [show ((st.remove_file p).graph.nodeAttrs x) = st.graph.nodeAttrs x by
      simp [HybridStore.remove_file, KnowledgeGraph.remove_nodes_by_file, hxs]] at hq
    rcases h2 x hxn q hq with ⟨hi, hm⟩
    have hqp : q ≠ p := by
      intro hqp
      apply hxs
      rw [KnowledgeGraph.fileNodeIds, Finset.mem_filter]
      exact ⟨hxn, by rw [hq, hqp]⟩
    constructor
    · simp only [HybridStore.remove_file, EmbeddingStore.delete_by_file, Finset.mem_filter]
      exact ⟨hi, by rw [hm]; simpa using hqp⟩
    · exact hm
  · intro x hx
    simp only [HybridStore.remove_file, KnowledgeGraph.remove_nodes_by_file,
      Finset.mem_sdiff, not_and, not_not] at hx
    by_cases hxs : x ∈ st.graph.fileNodeIds p
    · simp [HybridStore.remove_file, KnowledgeGraph.remove_nodes_by_file, hxs]
    · have hxn : x ∉ st.graph.nodes := fun hn => hxs (hx hn)
      simpa [HybridStore.remove_file, KnowledgeGraph.remove_nodes_by_file, hxs]
        using h3 x hxn

lemma inv_applyOps (ops : List StoreOp) (st : HybridStore) (h : st.Inv) :
    (st.applyOps ops).Inv := by
  induction ops generalizing st with
  | nil => exact h
  | cons op ops ih =>
    rw [HybridStore.applyOps, List.foldl_cons]
    apply ih
    cases op with
    | index cs rs => exact inv_index_chunks st cs rs h
    | remove p => exact inv_remove_file st p h

lemma inv_chunkIds_eq_fileNodeIds (st : HybridStore) (h : st.Inv) (p : String) :
    st.embeddings.chunkIdsByFile p = st.graph.fileNodeIds p := by
  obtain ⟨h1, h2, _⟩ := h
  ext x
  rw [EmbeddingStore.chunkIdsByFile, KnowledgeGraph.fileNodeIds,
    Finset.mem_filter, Finset.mem_filter]
  constructor
  · rintro ⟨hi, hp⟩
    rcases h1 x hi with ⟨hn, hfp⟩
    exact ⟨hn, by rw [hfp, hp]⟩
  · rintro ⟨hn, hp⟩
    rcases h2 x hn p hp with ⟨hi, hm⟩
    exact ⟨hi, hm⟩

/-! ### Indexer lemmas -/

lemma fingerprints_get_set_self (fp : Fingerprints) (f h : String) :
    (fp.set f h).get f = some h := by
  by_cases hf : f ∈ fp.keys <;>
    simp [Fingerprints.set, Fingerprints.get, hf]

lemma fingerprints_get_set_other (fp : Fingerprints) (f h x : String) (hx : x ≠ f) :
    (fp.set f h).get x = fp.get x := by
  by_cases hf : f ∈ fp.keys <;>
    simp [Fingerprints.set, Fingerprints.get, hf, hx]

lemma foldl_del_val (D : List String) (fp : Fingerprints) :
    (D.foldl Fingerprints.del fp).val = fp.val := by
  induction D generalizing fp with
  | nil => rfl
  | cons d D ih =>
    rw [List.foldl_cons, ih]
    rfl

lemma foldl_del_keys (D : List String) (fp : Fingerprints) :
    (D.foldl Fingerprints.del fp).keys = D.foldl List.erase fp.keys := by
  induction D generalizing fp with
  | nil => rfl
  | cons d D ih =>
    rw [List.foldl_cons, List.foldl_cons, ih]
    rfl

lemma count_foldl_erase (D : List String) :
    ∀ (l : List String) (x : String),
      (D.foldl List.erase l).count x = l.count x - D.count x := by
  induction D with
  | nil => intro l x; simp
  | cons d D ih =>
    intro l x
    rw [List.foldl_cons, ih, List.count_erase, List.count_cons]
    split_ifs <;> simp_all <;> omega

lemma mem_foldl_del_filter (fp : Fingerprints) (files : List String) (x : String)
    (hx : x ∈ ((fp.keys.filter (fun f => f ∉ files)).foldl Fingerprints.del fp).keys) :
    x ∈ files := by
  by_contra hxf
  rw [foldl_del_keys] at hx
  have hcount := count_foldl_erase (fp.keys.filter (fun f => f ∉ files)) fp.keys x
  have hpx : decide (x ∉ files) = true := by simpa using hxf
  have hfil : (fp.keys.filter (fun f => f ∉ files)).count x = fp.keys.count x :=
    List.count_filter hpx
  rw [hfil, Nat.sub_self] at hcount
  rw [← List.count_pos_iff, hcount] at hx
  exact Nat.lt_irrefl 0 hx

lemma get_foldl_del_filter (fp : Fingerprints) (files : List String) (f : String)
    (hf : f ∈ files) :
    ((fp.keys.filter (fun g => g ∉ files)).foldl Fingerprints.del fp).get f = fp.get f := by
  have hmem : (f ∈ ((fp.keys.filter (fun g => g ∉ files)).foldl Fingerprints.del fp).keys)
      ↔ f ∈ fp.keys := by
    rw [foldl_del_keys, ← List.count_pos_iff, ← List.count_pos_iff,
      count_foldl_erase]
    have hfil : (fp.keys.filter (fun g => g ∉ files)).count f = 0 := by
      rw [List.count_eq_zero]
      intro hmem
      rw [List.mem_filter] at hmem
      have hnotin : f ∉ files := by simpa using hmem.2
      exact hnotin hf
    rw [hfil]
    omega
  rw [Fingerprints.get, Fingerprints.get, foldl_del_val]
  by_cases hk : f ∈ fp.keys
  · rw [if_pos hk, if_pos (hmem.mpr hk)]
  · rw [if_neg hk, if_neg (fun h => hk (hmem.mp h))]

lemma indexFile_read_none (env : Env) (st : SyncState) (f : String) (force : Bool)
    (h : env.read f = none) : indexFile env st f force = (st, [], []) := by
  rw [indexFile]
  split_ifs
  · rfl
  · rw [h]

lemma indexFile_hashes_get_other (env : Env) (st : SyncState) (f : String) (force : Bool)
    (x : String) (hx : x ≠ f) :
    ((indexFile env st f force).1).hashes.get x = st.hashes.get x := by
  rw [indexFile]
  split_ifs
  · rfl
  · cases env.read f with
    | none => rfl
    | some c => exact fingerprints_get_set_other st.hashes f (env.hash f) x hx

lemma indexFile_force_some_get (env : Env) (st : SyncState) (f : String) (c : String)
    (h : env.read f = some c) :
    ((indexFile env st f true).1).hashes.get f = some (env.hash f) := by
  rw [indexFile, if_neg (by simp), h]
  exact fingerprints_get_set_self st.hashes f (env.hash f)

lemma indexFile_keys_subset (env : Env) (st : SyncState) (f : String) (force : Bool)
    (x : String) (hx : x ∈ ((indexFile env st f force).1).hashes.keys) :
    x ∈ st.hashes.keys ∨ x = f := by
  rw [indexFile] at hx
  split_ifs at hx
  · exact Or.inl hx
  · revert hx
    cases env.read f with
    | none => exact fun hx => Or.inl hx
    | some c =>
      intro hx
      have hx' : x ∈ (st.hashes.set f (env.hash f)).keys := hx
      simp only [Fingerprints.set] at hx'
      split_ifs at hx' with hmem
      · exact Or.inl hx'
      · rcases List.mem_append.mp hx' with h | h
        · exact Or.inl h
        · simp only [List.mem_singleton] at h
          exact Or.inr h

lemma indexFilesStep_fst (env : Env) (force : Bool) (acc : SyncState × ℕ × ℕ × ℕ)
    (f : String) : (indexFilesStep env force acc f).1 = (indexFile env acc.1 f force).1 := by
  simp only [indexFilesStep]
  split <;> rfl

lemma foldl_step_get_not_mem (env : Env) (force : Bool) (files : List String) :
    ∀ (acc : SyncState × ℕ × ℕ × ℕ) (f : String), f ∉ files →
      ((files.foldl (indexFilesStep env force) acc).1).hashes.get f
        = (acc.1).hashes.get f := by
  induction files with
  | nil => intro acc f _; rfl
  | cons g gs ih =>
    intro acc f hf
    rw [List.foldl_cons, ih _ f (fun h => hf (List.mem_cons_of_mem _ h)),
      indexFilesStep_fst]
    exact indexFile_hashes_get_other env acc.1 g force f
      (fun h => hf (h ▸ List.mem_cons_self _ _))

lemma foldl_step_get_read_some (env : Env) (files : List String) :
    ∀ (acc : SyncState × ℕ × ℕ × ℕ) (f : String) (c : String), f ∈ files →
      env.read f = some c →
      ((files.foldl (indexFilesStep env true) acc).1).hashes.get f
        = some (env.hash f) := by
  induction files with
  | nil =>
    intro acc f c h
    simp at h
  | cons g gs ih =>
    intro acc f c hf hread
    rw [List.foldl_cons]
    by_cases hfg : f ∈ gs
    · exact ih _ f c hfg hread
    · have hfe : f = g := by
        rcases List.mem_cons.mp hf with h | h
        · exact h
        · exact absurd h hfg
      subst hfe
      rw [foldl_step_get_not_mem env true gs _ f hfg, indexFilesStep_fst]
      exact indexFile_force_some_get env acc.1 f c hread

lemma foldl_step_noop (env : Env) (force : Bool) (files : List String) :
    ∀ (acc : SyncState × ℕ × ℕ × ℕ), (∀ f ∈ files, env.read f = none) →
      files.foldl (indexFilesStep env force) acc = acc := by
  induction files with
  | nil => intro acc _; rfl
  | cons g gs ih =>
    intro acc h
    rw [List.foldl_cons]
    have hstep : indexFilesStep env force acc g = acc := by
      simp only [indexFilesStep,
        indexFile_read_none env acc.1 g force (h g (List.mem_cons_self _ _))]
      simp
    rw [hstep]
    exact ih acc (fun f hf => h f (List.mem_cons_of_mem _ hf))

lemma foldl_step_keys_subset (env : Env) (force : Bool) (files : List String) :
    ∀ (acc : SyncState × ℕ × ℕ × ℕ) (x : String),
      x ∈ ((files.foldl (indexFilesStep env force) acc).1).hashes.keys →
      x ∈ (acc.1).hashes.keys ∨ x ∈ files := by
  induction files with
  | nil => intro acc x hx; exact Or.inl hx
  | cons g gs ih =>
    intro acc x hx
    rcases ih _ x hx with h | h
    · rw [indexFilesStep_fst] at h
      rcases indexFile_keys_subset env acc.1 g force x h with h | h
      · exact Or.inl h
      · exact Or.inr (h ▸ List.mem_cons_self _ _)
    · exact Or.inr (List.mem_cons_of_mem _ h)

/-- The result state of `incremental_index`, unfolded. -/
lemma incrementalIndex_fst (env : Env) (st : SyncState) :
    (incrementalIndex env st).1
      = (indexFiles env true
          ⟨(st.hashes.keys.filter (fun f => f ∉ env.files)).foldl
              HybridStore.remove_file st.store,
            (st.hashes.keys.filter (fun f => f ∉ env.files)).foldl
              Fingerprints.del st.hashes⟩
          (env.files.filter (fun f => ¬st.hashes.get f = some (env.hash f)))).1 := rfl

lemma incrementalIndex_keys_subset (env : Env) (st : SyncState) :
    ∀ x ∈ ((incrementalIndex env st).1).hashes.keys, x ∈ env.files := by
  intro x hx
  rw [incrementalIndex_fst, indexFiles] at hx
  rcases foldl_step_keys_subset env true _ _ x hx with h | h
  · exact mem_foldl_del_filter st.hashes env.files x h
  · exact List.mem_of_mem_filter h

/-- A sync whose fingerprint keys all belong to the current file set and
whose changed files are all unreadable is a no-op on the state. -/
lemma incrementalIndex_of_clean (env : Env) (st : SyncState)
    (hkeys : ∀ x ∈ st.hashes.keys, x ∈ env.files)
    (hchanged : ∀ f ∈ env.files, ¬st.hashes.get f = some (env.hash f) →
      env.read f = none) :
    (incrementalIndex env st).1 = st := by
  have hdel : st.hashes.keys.filter (fun f => f ∉ env.files) = [] := by
    rw [List.filter_eq_nil_iff]
    intro x hx
    simp only [decide_eq_true_eq, not_not]
    exact hkeys x hx
  rw [incrementalIndex_fst, hdel]
  have hnone : ∀ f ∈ env.files.filter (fun f => ¬st.hashes.get f = some (env.hash f)),
      env.read f = none := by
    intro f hf
    rw [List.mem_filter] at hf
    exact hchanged f hf.1 (by simpa using hf.2)
  rw [indexFiles, foldl_step_noop env true _ _ hnone]
  rfl

/-- Running a second incremental sync against an unchanged environment
changes nothing: the state after the first sync is a fixpoint. -/
lemma incrementalIndex_idem (env : Env) (st : SyncState) :
    (incrementalIndex env (incrementalIndex env st).1).1
      = (incrementalIndex env st).1 := by
  apply incrementalIndex_of_clean env _ (incrementalIndex_keys_subset env st)
  intro f hf hne
  cases hread : env.read f with
  | none => rfl
  | some c =>
    exfalso
    apply hne
    by_cases hfI : f ∈ env.files.filter (fun g => ¬st.hashes.get g = some (env.hash g))
    · rw [incrementalIndex_fst, indexFiles]
      exact foldl_step_get_read_some env _ _ f c hfI hread
    · have hmatch : st.hashes.get f = some (env.hash f) := by
        by_contra hc
        exact hfI (List.mem_filter.mpr ⟨hf, by simpa using hc⟩)
      rw [incrementalIndex_fst, indexFiles,
        foldl_step_get_not_mem env true _ _ f hfI]
      rw [show (⟨(st.hashes.keys.filter (fun g => g ∉ env.files)).foldl
            HybridStore.remove_file st.store,
          (st.hashes.keys.filter (fun g => g ∉ env.files)).foldl
            Fingerprints.del st.hashes⟩ : SyncState).hashes
        = (st.hashes.keys.filter (fun g => g ∉ env.files)).foldl
            Fingerprints.del st.hashes from rfl]
      rw [get_foldl_del_filter st.hashes env.files f hf]
      exact hmatch

/-! ### Impact score lemmas -/

lemma calcImpactScore_nonneg (a b c d : ℕ) : 0 ≤ calcImpactScore a b c d := by
  rw [calcImpactScore]
  apply le_min
  · norm_num
  · have h1 : (0 : ℚ) ≤ min ((a : ℚ) / 10) 0.3 := le_min (by positivity) (by norm_num)
    have h2 : (0 : ℚ) ≤ min ((b : ℚ) / 20) 0.2 := le_min (by positivity) (by norm_num)
    have h3 : (0 : ℚ) ≤ min ((c : ℚ) / 30) 0.3 := le_min (by positivity) (by norm_num)
    have h4 : (0 : ℚ) ≤ min ((d : ℚ) / 50) 0.2 := le_min (by positivity) (by norm_num)
    linarith

lemma calcImpactScore_le_one (a b c d : ℕ) : calcImpactScore a b c d ≤ 1 :=
  min_le_left _ _

/-! ### Claim theorems -/

/-- C1: corrected.  `get_dependents(id, maxDepth)` / `get_dependencies`
return exactly the set of node ids reachable from `id` within
`maxDepth + 1` hops (not `maxDepth`) along incoming (resp. outgoing) edges,
excluding `id` itself; in the three-node chain where `h` depends on `g` and
`g` depends on `f`, `get_dependents(f, 1)` returns the two-element set
containing `g` and `h`. -/
theorem traversal_returns_reach_plus_one :
    (∀ (g : KnowledgeGraph) (id : String) (maxDepth : ℕ), id ∈ g.nodes →
      g.get_dependents id maxDepth = reachWithin g.edges id (maxDepth + 1) \ {id}
      ∧ g.get_dependencies id maxDepth
          = reachWithin (g.edges.image Prod.swap) id (maxDepth + 1) \ {id})
    ∧ chainGraph.get_dependents "f" 1 = {"g", "h"} := by
  constructor
  · exact fun g id m h =>
      ⟨get_dependents_eq_reach g id m h, get_dependencies_eq_reach g id m h⟩
  · rw [get_dependents_eq_reach chainGraph "f" 1 (by decide)]
    decide

/-- C1, witness for the amended statement at the chain graph. -/
theorem traversal_returns_reach_plus_one_witness :
    "f" ∈ chainGraph.nodes
    ∧ (chainGraph.get_dependents "f" 1 = reachWithin chainGraph.edges "f" 2 \ {"f"}
      ∧ chainGraph.get_dependencies "f" 1
          = reachWithin (chainGraph.edges.image Prod.swap) "f" 2 \ {"f"}) :=
  ⟨by decide, traversal_returns_reach_plus_one.1 chainGraph "f" 1 (by decide)⟩

/-- C1, counterexample to the claim as stated: in the chain `h → g → f`,
`get_dependents(f, 1)` is not the singleton containing `g` — the node `h`,
two hops away, is also returned. -/
theorem traversal_depth_counterexample :
    chainGraph.get_dependents "f" 1 = {"g", "h"}
    ∧ chainGraph.get_dependents "f" 1 ≠ {"g"} := by
  have h := get_dependents_eq_reach chainGraph "f" 1 (by decide)
  constructor
  · rw [h]
    decide
  · rw [h]
    decide

/-- C2: confirmed.  Starting from an empty hybrid store, after any sequence
of `index_chunks` and `remove_file` operations, the chunk ids stored with
file path `p` coincide with the graph node ids whose `file_path` attribute
is `p`, and every indexed chunk id is a graph node id. -/
theorem chunk_node_bijection :
    ∀ (ops : List StoreOp) (p : String),
      (HybridStore.empty.applyOps ops).embeddings.chunkIdsByFile p
        = (HybridStore.empty.applyOps ops).graph.fileNodeIds p
      ∧ ∀ x ∈ (HybridStore.empty.applyOps ops).embeddings.ids,
          x ∈ (HybridStore.empty.applyOps ops).graph.nodes := by
  intro ops p
  have hinv := inv_applyOps ops HybridStore.empty inv_empty
  exact ⟨inv_chunkIds_eq_fileNodeIds _ hinv p, fun x hx => (hinv.1 x hx).1⟩

/-- C3: corrected.  `add_relationship` is an upsert keyed by
`(source, target)` only: it inserts the pair into the edge set and
overwrites the stored relation type, weight and line number; when the pair
is already present the edge count does not change — even when the relation
type differs, so the graph is a simple directed labelled graph, not a
multigraph. -/
theorem add_relationship_upsert_by_pair :
    ∀ (g : KnowledgeGraph) (r : Relationship),
      (g.add_relationship r).edges = insert (r.source_id, r.target_id) g.edges
      ∧ ((g.add_relationship r).edgeAttrs (r.source_id, r.target_id)).relation_type
          = some r.relation_type
      ∧ ((g.add_relationship r).edgeAttrs (r.source_id, r.target_id)).weight
          = some r.weight
      ∧ ((g.add_relationship r).edgeAttrs (r.source_id, r.target_id)).line_number
          = r.line_number
      ∧ ((r.source_id, r.target_id) ∈ g.edges →
          (g.add_relationship r).edge_count = g.edge_count) := by
  intro g r
  refine ⟨rfl, ?_, ?_, ?_, ?_⟩
  · simp [KnowledgeGraph.add_relationship]
  · simp [KnowledgeGraph.add_relationship]
  · simp [KnowledgeGraph.add_relationship]
  · intro h
    show (insert (r.source_id, r.target_id) g.edges).card = g.edges.card
    rw [Finset.insert_eq_self.mpr h]

/-- C3, witness for the amended statement: re-adding the `(a, b)` pair does
not change the edge count. -/
theorem add_relationship_upsert_witness :
    ("a", "b") ∈ oneRelGraph.edges ∧ twoRelGraph.edge_count = oneRelGraph.edge_count :=
  ⟨by decide,
    (add_relationship_upsert_by_pair oneRelGraph
      { source_id := "a", target_id := "b", relation_type := "calls" }).2.2.2.2 (by decide)⟩

/-- C3, counterexample to the claim as stated: two relationships sharing
source `a` and target `b` with different relation types (`imports`, then
`calls`) are stored as one single edge whose relation type is the one added
last, not as two distinct edges. -/
theorem add_relationship_multigraph_counterexample :
    twoRelGraph.edge_count = 1
    ∧ twoRelGraph.edge_count ≠ 2
    ∧ (twoRelGraph.edgeAttrs ("a", "b")).relation_type = some "calls" := by
  refine ⟨by decide, by decide, by decide⟩

/-- C4: confirmed.  On every graph whose edges connect existing nodes —
including graphs with directed cycles — both traversals are total functions
(they are defined by well-founded recursion, so termination is part of the
definition) returning a duplicate-free set (a `Finset`) that never contains
the start node, is contained in the node set, and has size at most the node
count. -/
theorem traversal_cycle_safe :
    ∀ (g : KnowledgeGraph), (∀ e ∈ g.edges, e.1 ∈ g.nodes ∧ e.2 ∈ g.nodes) →
      ∀ (id : String) (maxDepth : ℕ),
        id ∉ g.get_dependents id maxDepth
        ∧ g.get_dependents id maxDepth ⊆ g.nodes
        ∧ (g.get_dependents id maxDepth).card ≤ g.node_count
        ∧ id ∉ g.get_dependencies id maxDepth
        ∧ g.get_dependencies id maxDepth ⊆ g.nodes
        ∧ (g.get_dependencies id maxDepth).card ≤ g.node_count := by
  intro g hwf id maxD
  have h1 := get_dependents_subset_nodes g hwf id maxD
  have h2 := get_dependencies_subset_nodes g hwf id maxD
  exact ⟨start_not_mem_get_dependents g id maxD, h1, Finset.card_le_card h1,
    start_not_mem_get_dependencies g id maxD, h2, Finset.card_le_card h2⟩

/-- C4, witness on a two-node directed cycle. -/
theorem traversal_cycle_safe_witness :
    (∀ e ∈ cycleGraph.edges, e.1 ∈ cycleGraph.nodes ∧ e.2 ∈ cycleGraph.nodes)
    ∧ ("a" ∉ cycleGraph.get_dependents "a" 10
      ∧ cycleGraph.get_dependents "a" 10 ⊆ cycleGraph.nodes
      ∧ (cycleGraph.get_dependents "a" 10).card ≤ cycleGraph.node_count
      ∧ "a" ∉ cycleGraph.get_dependencies "a" 10
      ∧ cycleGraph.get_dependencies "a" 10 ⊆ cycleGraph.nodes
      ∧ (cycleGraph.get_dependencies "a" 10).card ≤ cycleGraph.node_count) :=
  ⟨by decide, traversal_cycle_safe cycleGraph (by decide) "a" 10⟩

/-- C5: confirmed.  The impact score computed by `analyze_files` equals
`min(1, wF + wS + wD + wT)` with `wF = min(files/10, 0.3)`,
`wS = min(symbols/20, 0.2)`, `wD = min(direct/30, 0.3)`,
`wT = min(transitive/50, 0.2)`, and for every input it lies in `[0, 1]`. -/
theorem impact_score_formula :
    ∀ (g : KnowledgeGraph) (paths : List String) (maxDepth : ℕ),
      analyzeFilesScore g paths maxDepth
        = min 1 (min ((paths.length : ℚ) / 10) 0.3
            + min (((changedSymbols g paths).card : ℚ) / 20) 0.2
            + min (((directlyAffected g paths).card : ℚ) / 30) 0.3
            + min (((transitivelyAffected g paths maxDepth).card : ℚ) / 50) 0.2)
      ∧ 0 ≤ analyzeFilesScore g paths maxDepth
      ∧ analyzeFilesScore g paths maxDepth ≤ 1 := by
  intro g paths maxDepth
  exact ⟨rfl, calcImpactScore_nonneg _ _ _ _, calcImpactScore_le_one _ _ _ _⟩

/-- C6: confirmed.  The impact score is monotone in each of its four
counts. -/
theorem impact_score_monotone :
    ∀ (a b c d e f i j : ℕ), a ≤ e → b ≤ f → c ≤ i → d ≤ j →
      calcImpactScore a b c d ≤ calcImpactScore e f i j := by
  intro a b c d e f i j h1 h2 h3 h4
  rw [calcImpactScore, calcImpactScore]
  gcongr

/-- C6, witness at a concrete pair of componentwise-ordered inputs. -/
theorem impact_score_monotone_witness :
    (1 ≤ 2 ∧ 3 ≤ 4 ∧ 5 ≤ 6 ∧ 7 ≤ 8)
    ∧ calcImpactScore 1 3 5 7 ≤ calcImpactScore 2 4 6 8 :=
  ⟨by norm_num,
    impact_score_monotone 1 3 5 7 2 4 6 8 (by norm_num) (by norm_num) (by norm_num)
      (by norm_num)⟩

/-- C7: confirmed.  Severity is determined by inclusive lower-bound
thresholds (score ≥ 0.8 critical, 0.6 ≤ score < 0.8 high, 0.3 ≤ score < 0.6
medium, otherwise low); in particular a score of exactly 0.8 is critical and
exactly 0.3 is medium. -/
theorem severity_thresholds :
    (∀ score : ℚ, determineSeverity score = severityIntervalSpec score)
    ∧ determineSeverity 0.8 = "critical"
    ∧ determineSeverity 0.3 = "medium" := by
  refine ⟨?_, ?_, ?_⟩
  · intro s
    by_cases h1 : (0.8 : ℚ) ≤ s
    · simp [determineSeverity, severityIntervalSpec, h1]
    · by_cases h2 : (0.6 : ℚ) ≤ s
      · have h18 : s < 0.8 := not_le.mp h1
        simp [determineSeverity, severityIntervalSpec, h1, h2, h18]
      · by_cases h3 : (0.3 : ℚ) ≤ s
        · have h16 : s < 0.6 := not_le.mp h2
          simp [determineSeverity, severityIntervalSpec, h1, h2, h3, h16]
        · simp [determineSeverity, severityIntervalSpec, h1, h2, h3]
  · norm_num [determineSeverity]
  · norm_num [determineSeverity]

/-- C8: corrected.  A read failure for one file leaves the whole sync state
(fingerprints, chunks, graph) unchanged for that file and the batch
continues over the remaining files; but a file whose content fails to parse
is not skipped: `PythonParser.parse` absorbs the `SyntaxError` and returns a
single file-level fallback chunk, so the file is indexed and its fingerprint
is updated. -/
theorem read_failure_skips_file :
    (∀ (env : Env) (st : SyncState) (f : String) (force : Bool),
      env.read f = none → indexFile env st f force = (st, [], []))
    ∧ (∀ (env : Env) (force : Bool) (st : SyncState) (f : String) (xs ys : List String),
        env.read f = none →
          indexFiles env force st (xs ++ f :: ys) = indexFiles env force st (xs ++ ys))
    ∧ (∀ (hashC stem : String → String) (ast : String → Option (List CodeChunk))
        (path content : String), ast content = none →
          pythonParseModel hashC stem ast path content
            = [pyFileChunk hashC stem path content]) := by
  refine ⟨indexFile_read_none, ?_, ?_⟩
  · intro env force st f xs ys h
    have hstep : ∀ A, indexFilesStep env force A f = A := by
      intro A
      simp only [indexFilesStep, indexFile_read_none env A.1 f force h]
      simp
    rw [indexFiles, indexFiles, List.foldl_append, List.foldl_append, List.foldl_cons,
      hstep]
  · intro hashC stem ast path content h
    rw [pythonParseModel, h]

/-- C8, witness: an unreadable file is skipped as a no-op, the batch around
it is unaffected, and a syntax error yields the fallback file chunk. -/
theorem read_failure_skips_file_witness :
    brokenPyEnv.read "b.py" = none
    ∧ indexFile brokenPyEnv brokenPyState "b.py" true = (brokenPyState, [], [])
    ∧ indexFiles brokenPyEnv true brokenPyState (["a.py"] ++ "b.py" :: [])
        = indexFiles brokenPyEnv true brokenPyState (["a.py"] ++ [])
    ∧ pythonParseModel (fun _ => "ch") (fun _ => "a") (fun _ => none) "a.py" "def broken(:"
        = [pyFileChunk (fun _ => "ch") (fun _ => "a") "a.py" "def broken(:"] := by
  refine ⟨by decide, ?_, ?_, ?_⟩
  · exact read_failure_skips_file.1 brokenPyEnv brokenPyState "b.py" true (by decide)
  · exact read_failure_skips_file.2.1 brokenPyEnv true brokenPyState "b.py" ["a.py"] []
      (by decide)
  · exact read_failure_skips_file.2.2 (fun _ => "ch") (fun _ => "a") (fun _ => none)
      "a.py" "def broken(:" rfl

/-- C8, counterexample to the claim as stated: syncing a changed Python file
whose content fails to parse does not leave its fingerprint, chunks and
nodes unchanged — the fingerprint is overwritten with the new hash and a
fallback chunk (with its graph node) is written, so the file is not retried
as unchanged state next sync. -/
theorem parse_failure_counterexample :
    brokenPyState.hashes.get "a.py" = some "h0"
    ∧ (incrementalIndex brokenPyEnv brokenPyState).1.hashes.get "a.py" = some "h1"
    ∧ (incrementalIndex brokenPyEnv brokenPyState).1.hashes.get "a.py"
        ≠ brokenPyState.hashes.get "a.py"
    ∧ brokenPyState.store.embeddings.chunkIdsByFile "a.py" = ∅
    ∧ (incrementalIndex brokenPyEnv brokenPyState).1.store.embeddings.chunkIdsByFile "a.py"
        ≠ ∅
    ∧ (incrementalIndex brokenPyEnv brokenPyState).1.store.graph.fileNodeIds "a.py" ≠ ∅ := by
  refine ⟨by decide, by decide, by decide, by decide, by decide, by decide⟩

/-- C9: confirmed.  A file whose stored fingerprint equals its current hash
is not selected for re-indexing, and a second incremental sync against an
unchanged environment is a no-op: the whole state — hence all
`get_chunks_by_file` results and the node and edge counts — is a
fixpoint. -/
theorem incremental_reindex_idempotent :
    ∀ (env : Env) (st : SyncState) (f : String),
      (st.hashes.get f = some (env.hash f) →
        f ∉ env.files.filter (fun g => ¬st.hashes.get g = some (env.hash g)))
      ∧ (incrementalIndex env (incrementalIndex env st).1).1 = (incrementalIndex env st).1
      ∧ (∀ p, ((incrementalIndex env (incrementalIndex env st).1).1).store.embeddings.chunkIdsByFile p
          = ((incrementalIndex env st).1).store.embeddings.chunkIdsByFile p)
      ∧ ((incrementalIndex env (incrementalIndex env st).1).1).store.graph.node_count
          = ((incrementalIndex env st).1).store.graph.node_count
      ∧ ((incrementalIndex env (incrementalIndex env st).1).1).store.graph.edge_count
          = ((incrementalIndex env st).1).store.graph.edge_count := by
  intro env st f
  have hidem := incrementalIndex_idem env st
  refine ⟨?_, hidem, fun p => by rw [hidem], by rw [hidem], by rw [hidem]⟩
  intro h hmem
  rw [List.mem_filter] at hmem
  have hne : ¬st.hashes.get f = some (env.hash f) := by simpa using hmem.2
  exact hne h

/-- C9, witness at a concrete environment where the fingerprint matches. -/
theorem incremental_reindex_idempotent_witness :
    matchedPyState.hashes.get "a.py" = some (brokenPyEnv.hash "a.py")
    ∧ "a.py" ∉ brokenPyEnv.files.filter
        (fun g => ¬matchedPyState.hashes.get g = some (brokenPyEnv.hash g))
    ∧ (incrementalIndex brokenPyEnv (incrementalIndex brokenPyEnv matchedPyState).1).1
        = (incrementalIndex brokenPyEnv matchedPyState).1 := by
  refine ⟨by decide, ?_, ?_⟩
  · exact (incremental_reindex_idempotent brokenPyEnv matchedPyState "a.py").1 (by decide)
  · exact (incremental_reindex_idempotent brokenPyEnv matchedPyState "a.py").2.1

/-- C10: confirmed.  Adding a relationship whose source or target id is not
an existing node materialises that id as an attribute-less node: the node
count strictly increases and `get_node` afterwards returns a `GraphNode`
with node type defaulting to `"file"`, an empty name and no file path,
rather than `none`. -/
theorem dangling_endpoint_creates_node :
    ∀ (g : KnowledgeGraph) (r : Relationship),
      (∀ x, x ∉ g.nodes → g.nodeAttrs x = {}) →
      (r.source_id ∉ g.nodes →
        g.node_count < (g.add_relationship r).node_count
        ∧ (g.add_relationship r).get_node r.source_id
            = some { id := r.source_id, node_type := "file", name := "" })
      ∧ (r.target_id ∉ g.nodes →
        g.node_count < (g.add_relationship r).node_count
        ∧ (g.add_relationship r).get_node r.target_id
            = some { id := r.target_id, node_type := "file", name := "" }) := by
  intro g r hwf
  have hsub : g.nodes ⊆ insert r.source_id (insert r.target_id g.nodes) :=
    (Finset.subset_insert _ _).trans (Finset.subset_insert _ _)
  constructor
  · intro hs
    constructor
    · apply Finset.card_lt_card
      show g.nodes ⊂ insert r.source_id (insert r.target_id g.nodes)
      rw [Finset.ssubset_iff_of_subset hsub]
      exact ⟨r.source_id, Finset.mem_insert_self _ _, hs⟩
    · have hmem : r.source_id ∈ (g.add_relationship r).nodes :=
        Finset.mem_insert_self _ _
      rw [KnowledgeGraph.get_node, if_pos hmem]
      rw [show (g.add_relationship r).nodeAttrs r.source_id = {} from hwf _ hs]
      rfl
  · intro ht
    constructor
    · apply Finset.card_lt_card
      show g.nodes ⊂ insert r.source_id (insert r.target_id g.nodes)
      rw [Finset.ssubset_iff_of_subset hsub]
      exact ⟨r.target_id, Finset.mem_insert_of_mem (Finset.mem_insert_self _ _), ht⟩
    · have hmem : r.target_id ∈ (g.add_relationship r).nodes :=
        Finset.mem_insert_of_mem (Finset.mem_insert_self _ _)
      rw [KnowledgeGraph.get_node, if_pos hmem]
      rw [show (g.add_relationship r).nodeAttrs r.target_id = {} from hwf _ ht]
      rfl

/-- C10, witness: a dangling source id on a one-node graph. -/
theorem dangling_endpoint_creates_node_witness :
    (∀ x, x ∉ singleNodeGraph.nodes → singleNodeGraph.nodeAttrs x = {})
    ∧ "x" ∉ singleNodeGraph.nodes
    ∧ (singleNodeGraph.node_count
          < (singleNodeGraph.add_relationship danglingRel).node_count
      ∧ (singleNodeGraph.add_relationship danglingRel).get_node "x"
          = some { id := "x", node_type := "file", name := "" }) := by
  have hwf : ∀ x, x ∉ singleNodeGraph.nodes → singleNodeGraph.nodeAttrs x = {} := by
    intro x hx
    have hxn : x ≠ "n" := by
      intro hxe
      apply hx
      rw [hxe]
      decide
    simp [singleNodeGraph, KnowledgeGraph.add_node, KnowledgeGraph.empty, hxn]
  exact ⟨hwf, by decide,
    (dangling_endpoint_creates_node singleNodeGraph danglingRel hwf).1 (by decide)⟩

end Agentna
